import Mathlib

/-!
Verification development for the daylight_alarm LED strip driver.

The definitions below are shallow embeddings of the Python source:
machine integers become Nat or Int, floats become exact rationals with
explicit truncation or Python-style rounding, numpy arrays become lists,
raising an exception becomes returning none or Except.error.
-/

/-- RGB triple, one natural number per channel. -/
abbrev RGB := ℕ × ℕ × ℕ

/-- Truncation toward zero of a rational, as performed by int() in Python
and astype(int) in numpy when applied to a float value. -/
def truncQ (q : ℚ) : ℤ := if 0 ≤ q then ⌊q⌋ else ⌈q⌉

/-- Python 3 round(): round half to even (banker's rounding). -/
def pyRound (q : ℚ) : ℤ :=
  let f := ⌊q⌋
  let r := q - f
  if r < 1/2 then f
  else if 1/2 < r then f + 1
  else if f % 2 = 0 then f else f + 1

/-- Squared Euclidean distance between two rational points. -/
def sqDist (a b : ℚ × ℚ) : ℚ := (a.1 - b.1) ^ 2 + (a.2 - b.2) ^ 2

/-- Index of the LED position nearest to a query point, first index wins on
ties.  Embeds the cKDTree nearest-neighbour query of LightArray (the tree
is a search accelerator; its result is the argmin over the stored points). -/
def nearestIdx (ps : List (ℚ × ℚ)) (q : ℚ × ℚ) : ℕ :=
  (List.range ps.length).foldl
    (fun best i =>
      if sqDist (ps.getD i (0, 0)) q < sqDist (ps.getD best (0, 0)) q then i else best)
    0

/-- The pixel coordinate enumeration used to build pixel_positions in
LightArray._image_to_colors: x outer, y inner (column-major). -/
def pixelList (W H : ℕ) : List (ℕ × ℕ) :=
  (List.range W).flatMap fun x => (List.range H).map fun y => (x, y)

/-- Region assignment: for each pixel (in pixel_positions order) the index of
the nearest LED to the normalised coordinate (x / W, y / H).  Embeds
self.kdtree.query(pixel_positions) in LightArray._image_to_colors. -/
def regionsList (ps : List (ℚ × ℚ)) (W H : ℕ) : List ℕ :=
  (pixelList W H).map fun p => nearestIdx ps ((p.1 : ℚ) / W, (p.2 : ℚ) / H)

/-- Image data in the order returned by PIL Image.getdata(): y outer, x inner
(row-major).  Note this order differs from pixelList, exactly as it does in
the source, where color_data and regions are indexed by the same flat index. -/
def colorData (W H : ℕ) (f : ℕ → ℕ → RGB) : List RGB :=
  (List.range H).flatMap fun y => (List.range W).map fun x => f x y

/-- Colors at the flat indices assigned to region r: embeds
color_data[regions == region]. -/
def assignedColors (regs : List ℕ) (cols : List RGB) (r : ℕ) : List RGB :=
  ((regs.zip cols).filter fun p => p.1 == r).map Prod.snd

/-- The k=1 KMeans cluster centre of a set of colors is the per-channel
arithmetic mean; int() then truncates each channel toward zero, which for
nonnegative channels is natural-number division of the sum by the count.
KMeans.fit raises on an empty input, modelled by none. -/
def truncMean (l : List RGB) : Option RGB :=
  match l with
  | [] => none
  | _ =>
    some ((l.map fun c => c.1).sum / l.length,
          (l.map fun c => c.2.1).sum / l.length,
          (l.map fun c => c.2.2).sum / l.length)

/-- Minimum of a list of naturals, as numpy min over a nonempty array. -/
def minR (l : List ℕ) : ℕ := l.foldl min (l.headD 0)

/-- Maximum of a list of naturals, as numpy max over a nonempty array. -/
def maxR (l : List ℕ) : ℕ := l.foldl max 0

/-- The region loop body of LightArray._image_to_colors: for each region
index in the given list, replace entry region of the result array with the
truncated mean of the colors assigned to that region; fail if a region in
the list has no assigned colors (KMeans raises on an empty sample). -/
def applyRegions (regs : List ℕ) (cols : List RGB) : List ℕ → List RGB → Option (List RGB)
  | [], ret => some ret
  | r :: rs, ret =>
    match truncMean (assignedColors regs cols r) with
    | none => none
    | some c => applyRegions regs cols rs (ret.set r c)

/-- Embedding of LightArray._image_to_colors: compute the region of every
image pixel, then loop region over range(min(regions), max(regions)) filling
an initially all-black N x 3 array with each region's cluster centre. -/
def imageToColors (ps : List (ℚ × ℚ)) (W H : ℕ) (f : ℕ → ℕ → RGB) : Option (List RGB) :=
  let regs := regionsList ps W H
  let cols := colorData W H f
  applyRegions regs cols (List.range' (minR regs) (maxR regs - minR regs))
    (List.replicate ps.length (0, 0, 0))

/-- Lowest region index assigned to any image pixel. -/
def minAssigned (ps : List (ℚ × ℚ)) (W H : ℕ) : ℕ := minR (regionsList ps W H)

/-- Highest region index assigned to any image pixel. -/
def maxAssigned (ps : List (ℚ × ℚ)) (W H : ℕ) : ℕ := maxR (regionsList ps W H)

/-- Two LED positions at opposite corners of the unit square. -/
def ps0 : List (ℚ × ℚ) := [(0, 0), (1, 1)]

/-- Two LED positions on the line x = 1 at heights 0 and 4/5. -/
def ps2 : List (ℚ × ℚ) := [(1, 0), (1, 4/5)]

/-- Three LED positions on the line x = 1 at heights 0, 2/5 and 1. -/
def ps3 : List (ℚ × ℚ) := [(1, 0), (1, 2/5), (1, 1)]

/-- A 1 x 4 image holding four distinct grey levels down its single column. -/
def f3 : ℕ → ℕ → RGB := fun _ y =>
  if y = 0 then (9, 9, 9) else if y = 1 then (1, 1, 1) else if y = 2 then (2, 2, 2) else (7, 7, 7)

/-- Round a rational to the nearest integer (half up) and clamp to 0..255. -/
def roundClamp (q : ℚ) : ℕ := Int.toNat (min 255 (max 0 ⌊q + 1/2⌋))

/-- Modelled from the claim wording, for comparison with the code: every LED
region with at least one assigned pixel receives the per-channel arithmetic
mean of its pixels rounded to nearest and clamped to 0..255, and every region
with no assigned pixels receives pure black. -/
def claimedRegionColors (ps : List (ℚ × ℚ)) (W H : ℕ) (f : ℕ → ℕ → RGB) : List RGB :=
  let regs := regionsList ps W H
  let cols := colorData W H f
  (List.range ps.length).map fun r =>
    match assignedColors regs cols r with
    | [] => (0, 0, 0)
    | l => (roundClamp (((l.map fun c => c.1).sum : ℚ) / l.length),
            roundClamp (((l.map fun c => c.2.1).sum : ℚ) / l.length),
            roundClamp (((l.map fun c => c.2.2).sum : ℚ) / l.length))

/-- State of a DitherFade animation: the shuffled queue of pixel indices still
to switch, the mutable current frame colors, and the target frame colors.
Colors are the packed integers stored in Frame.colors arrays. -/
structure DFState where
  remaining : List ℕ
  cur : List ℤ
  target : List ℤ
deriving DecidableEq, Repr

/-- Overwrite one pixel of the current frame with its target color, as
self.current_frame.colors[idx] = self.new_frame.colors[idx] does. -/
def setTgt (tgt : List ℤ) (c : List ℤ) (i : ℕ) : List ℤ := c.set i (tgt.getD i 0)

/-- The batch loop body of DitherFade.__next__: pop up to b indices from the
end of the remaining queue (list.pop() takes the last element; an IndexError
on an empty queue breaks out of the loop), overwriting each popped pixel with
its target color.  Returns the new queue, the new current colors and the list
of popped indices in pop order. -/
def dfPop (tgt : List ℤ) : ℕ → List ℕ → List ℤ → List ℕ × List ℤ × List ℕ
  | 0, rem, cur => (rem, cur, [])
  | b + 1, rem, cur =>
    match rem.getLast? with
    | none => (rem, cur, [])
    | some idx =>
      let r := dfPop tgt b rem.dropLast (setTgt tgt cur idx)
      (r.1, r.2.1, idx :: r.2.2)

/-- DitherFade.__next__: raise StopIteration (none) exactly when the queue is
empty, otherwise pop one batch and emit the updated current frame. -/
def dfNext (b : ℕ) (s : DFState) : Option (DFState × List ℤ × List ℕ) :=
  if s.remaining = [] then none
  else
    let r := dfPop s.target b s.remaining s.cur
    some ({ remaining := r.1, cur := r.2.1, target := s.target }, r.2.1, r.2.2)

/-- Iterate dfNext with explicit fuel, returning the number of frames
emitted, the final state and the concatenation of all written pixel indices. -/
def dfRun (b : ℕ) : ℕ → DFState → ℕ × DFState × List ℕ
  | 0, s => (0, s, [])
  | fuel + 1, s =>
    match dfNext b s with
    | none => (0, s, [])
    | some (s2, _, wr) =>
      let r := dfRun b fuel s2
      (r.1 + 1, r.2.1, wr ++ r.2.2)

/-- LerpFade state: the frame counter, the old and target frame color arrays
(the packed integers stored in Frame.colors), and the configured step count. -/
structure LFState where
  fn : ℕ
  old : List ℤ
  tgt : List ℤ
  steps : ℕ
deriving DecidableEq, Repr

/-- Elementwise interpolated frame old + (delta * k).astype(int) with
delta = (target - old) / steps computed exactly; astype(int) truncates
toward zero. -/
def lerpFrame (old tgt : List ℤ) (steps k : ℕ) : List ℤ :=
  (old.zip tgt).map fun p => p.1 + truncQ (((p.2 - p.1 : ℚ) / (steps : ℚ)) * (k : ℚ))

/-- LerpFade.__next__: raise StopIteration once frame_number reaches steps,
otherwise emit the frame interpolated at the current frame_number, then
increment the counter. -/
def lfNext (s : LFState) : Option (LFState × List ℤ) :=
  if s.steps ≤ s.fn then none
  else some ({ s with fn := s.fn + 1 }, lerpFrame s.old s.tgt s.steps s.fn)

/-- Iterate lfNext with fuel, collecting the emitted frames in order. -/
def lfRun : ℕ → LFState → List (List ℤ)
  | 0, _ => []
  | fuel + 1, s =>
    match lfNext s with
    | none => []
    | some (s2, fr) => fr :: lfRun fuel s2

/-- Modelled from the claim wording, for comparison with the code: the frame
at step k is claimed to hold channel value old + round(k (target - old) / steps),
rounding to the nearest integer. -/
def claimedLerpValue (old tgt : ℤ) (steps k : ℕ) : ℤ :=
  old + ⌊((tgt - old : ℚ) * (k : ℚ)) / (steps : ℚ) + 1 / 2⌋

/-- DitherLerpFade state: the outer interpolation counter lerp_step, the
inner dither queue, the old frame kept as interpolation base, the mutable
current and next frames, the target frame, and the configured steps and
batch size. -/
structure DLFState where
  lerpStep : ℕ
  remaining : List ℕ
  old : List ℤ
  cur : List ℤ
  nxt : List ℤ
  tgt : List ℤ
  steps : ℕ
  batch : ℕ
deriving DecidableEq, Repr

/-- DitherLerpFade.__next__: when the inner queue is empty, promote the next
interpolated frame to current, advance lerp_step and build the following
interpolated frame (get_next_lerp_frame), refilling the queue with a fresh
shuffle (passed in as the refill oracle); then pop one batch, writing those
pixels of the next frame into the current frame, and emit the current frame.
The function has no StopIteration branch and never consults steps. -/
def dlfNext (refill : List ℕ) (s : DLFState) : Option (DLFState × List ℤ) :=
  let s1 :=
    if s.remaining = [] then
      { s with cur := s.nxt, lerpStep := s.lerpStep + 1,
               nxt := lerpFrame s.old s.tgt s.steps (s.lerpStep + 1), remaining := refill }
    else s
  let r := dfPop s1.nxt s1.batch s1.remaining s1.cur
  some ({ s1 with remaining := r.1, cur := r.2.1 }, r.2.1)

/-- The inter-frame sleep duration computed in Animation.play:
delay - dt, with no lower clamp. -/
def playSleep (delay dt : ℚ) : ℚ := delay - dt

/-- Python time.sleep: a negative duration raises ValueError; a nonnegative
one sleeps for that duration. -/
def pySleep (t : ℚ) : Except String ℚ :=
  if t < 0 then Except.error "ValueError" else Except.ok t

/-- The batch size computation of dither_fade in ledstrip.py: the number of
5 ms switches that fit in the time budget, a preliminary batch size of
numPixels over switches plus one half rounded, and when that is not 1 a
correction through a rounded number of batches.  A zero denominator raises
ZeroDivisionError, modelled as none. -/
def ditherBatchSize (numPixels : ℕ) (ditherTime : ℚ) : Option ℤ :=
  let switches := pyRound (ditherTime / (5 / 1000))
  if switches = 0 then none
  else
    let b0 := pyRound ((numPixels : ℚ) / (switches : ℚ) + 1 / 2)
    if b0 = 1 then some b0
    else
      let nb := pyRound ((numPixels : ℚ) / (b0 : ℚ))
      if nb = 0 then none
      else some (pyRound ((numPixels : ℚ) / (nb : ℚ)))

/-- Modelled from the claim wording, for comparison with the code:
ceil(led_count / max(1, round(dither_time / 0.005))). -/
def claimedBatchSize (numPixels : ℕ) (ditherTime : ℚ) : ℤ :=
  ⌈(numPixels : ℚ) / ((max 1 (pyRound (ditherTime / (5 / 1000))) : ℤ) : ℚ)⌉

/-- The cache control flow of display_image in light_array.py: when the
pickle file exists, the result of unpickling is used directly, so a load
failure propagates to the caller; only a missing file leads to
recomputation. -/
def displayImageLoad (α : Type) (cacheExists : Bool) (load : Except String α)
    (recompute : α) : Except String α :=
  if cacheExists then load else Except.ok recompute

/-- DitherFade state over an explicit frame store, to reason about object
identity: frames are heap objects addressed by an index into the store; the
engine keeps the identities of its current frame (a deep copy of the old
frame made at construction) and of the target frame. -/
structure DF9State where
  curId : ℕ
  newId : ℕ
  store : List (List ℤ)
  remaining : List ℕ
  batch : ℕ
deriving DecidableEq, Repr

/-- DitherFade.__next__ under the explicit store: pop a batch, write those
pixels of the target frame into the current frame object in place, and
return the identity of the current frame itself (return self.current_frame
performs no copy). -/
def df9Next (s : DF9State) : Option (DF9State × ℕ) :=
  if s.remaining = [] then none
  else
    let cur := s.store.getD s.curId []
    let tgt := s.store.getD s.newId []
    let r := dfPop tgt s.batch s.remaining cur
    some ({ s with remaining := r.1, store := s.store.set s.curId r.2.1 }, s.curId)

/-- Initial DitherFade store: frame 0 is the engine's current frame (the
deep copy of the old frame, colors 0 0), frame 1 is the target (colors 1 1);
queue shuffled to the order 0, 1; batch size 1. -/
def df9S0 : DF9State := ⟨0, 1, [[0, 0], [1, 1]], [0, 1], 1⟩

/-- The state after one step: pixel 1 written, frame 0 emitted. -/
def df9S1 : DF9State := ⟨0, 1, [[0, 1], [1, 1]], [0], 1⟩

/-- The state after two steps: pixel 0 written, frame 0 emitted again. -/
def df9S2 : DF9State := ⟨0, 1, [[1, 1], [1, 1]], [], 1⟩

/-- The sunrise band start index of sunrise_animation in ledstrip.py:
int(frac * numPixels) with frac = step / steps; the products are dyadic so
the float computation is exact and int() is floor on these nonnegative
values, which is natural division here. -/
def sunriseStart (n steps step : ℕ) : ℕ := step * n / steps

/-- The sunrise band width: int(0.1 * numPixels), which is 15 for 150. -/
def sunriseWidth (n : ℕ) : ℕ := n / 10

/-- The pixel indices written with the sunrise color at one step:
range(sunrise_start, sunrise_end) with sunrise_end = start + width. -/
def sunrisePixels (n steps step : ℕ) : List ℕ :=
  List.range' (sunriseStart n steps step) (sunriseWidth n)

/-- The stub PixelStrip.setPixelColor of ws_stub.py: assigns into a numpy
array of length num; a (nonnegative) index at or beyond the length raises
IndexError, modelled as none. -/
def stubSetPixelColor (data : List ℤ) (n : ℕ) (c : ℤ) : Option (List ℤ) :=
  if n < data.length then some (data.set n c) else none

theorem getD_set_eq {α : Type} (l : List α) (i : ℕ) (a d : α) (h : i < l.length) :
    (l.set i a).getD i d = a := by
  simp [List.getD_eq_getElem?_getD, List.getElem?_set_self h]

theorem getD_set_ne {α : Type} (l : List α) (i j : ℕ) (a d : α) (h : i ≠ j) :
    (l.set i a).getD j d = l.getD j d := by
  simp [List.getD_eq_getElem?_getD, List.getElem?_set_ne h]

theorem applyRegions_length (regs : List ℕ) (cols : List RGB) :
    ∀ (rs : List ℕ) (ret out : List RGB),
      applyRegions regs cols rs ret = some out → out.length = ret.length := by
  intro rs
  induction rs with
  | nil => intro ret out h; simp [applyRegions] at h; simp [h]
  | cons r rs ih =>
    intro ret out h
    cases hm : truncMean (assignedColors regs cols r) with
    | none => simp [applyRegions, hm] at h
    | some c =>
      simp only [applyRegions, hm] at h
      have := ih (ret.set r c) out h
      simpa using this

theorem applyRegions_getD_not_mem (regs : List ℕ) (cols : List RGB) :
    ∀ (rs : List ℕ) (ret out : List RGB) (i : ℕ) (d : RGB),
      applyRegions regs cols rs ret = some out → i ∉ rs → out.getD i d = ret.getD i d := by
  intro rs
  induction rs with
  | nil => intro ret out i d h _; simp [applyRegions] at h; simp [h]
  | cons r rs ih =>
    intro ret out i d h hni
    cases hm : truncMean (assignedColors regs cols r) with
    | none => simp [applyRegions, hm] at h
    | some c =>
      simp only [applyRegions, hm] at h
      have hir : i ≠ r := fun he => hni (he ▸ List.mem_cons_self r rs)
      have hirs : i ∉ rs := fun hmem => hni (List.mem_cons_of_mem r hmem)
      rw [ih (ret.set r c) out i d h hirs, getD_set_ne ret r i c d (fun he => hir he.symm)]

theorem applyRegions_getD_mem (regs : List ℕ) (cols : List RGB) :
    ∀ (rs : List ℕ) (ret out : List RGB) (d : RGB),
      applyRegions regs cols rs ret = some out → rs.Nodup →
      ∀ r ∈ rs, r < ret.length →
        some (out.getD r d) = truncMean (assignedColors regs cols r) := by
  intro rs
  induction rs with
  | nil => intro ret out d _ _ r hr; exact absurd hr (List.not_mem_nil r)
  | cons r0 rs ih =>
    intro ret out d h hnd r hr hlt
    cases hm : truncMean (assignedColors regs cols r0) with
    | none => simp [applyRegions, hm] at h
    | some c =>
      simp only [applyRegions, hm] at h
      rcases List.mem_cons.mp hr with he | hmem
      · subst he
        have hnot : r ∉ rs := (List.nodup_cons.mp hnd).1
        rw [applyRegions_getD_not_mem regs cols rs (ret.set r c) out r d h hnot,
          getD_set_eq ret r c d hlt, hm]
      · have hlen : r < (ret.set r0 c).length := by simpa using hlt
        exact ih (ret.set r0 c) out d h (List.nodup_cons.mp hnd).2 r hmem hlen

theorem foldl_select_lt (f : ℕ → ℕ → ℕ) (hf : ∀ b i, f b i = b ∨ f b i = i) :
    ∀ (l : List ℕ) (n acc : ℕ), acc < n → (∀ i ∈ l, i < n) → l.foldl f acc < n := by
  intro l
  induction l with
  | nil => intro n acc hacc _; simpa using hacc
  | cons x xs ih =>
    intro n acc hacc hmem
    simp only [List.foldl_cons]
    have hx : x < n := hmem x (List.mem_cons_self x xs)
    have hstep : f acc x < n := by
      rcases hf acc x with h | h <;> rw [h]
      · exact hacc
      · exact hx
    exact ih n (f acc x) hstep (fun i hi => hmem i (List.mem_cons_of_mem x hi))

theorem nearestIdx_lt (ps : List (ℚ × ℚ)) (q : ℚ × ℚ) (h : ps ≠ []) :
    nearestIdx ps q < ps.length := by
  have hlen : 0 < ps.length := List.length_pos.mpr h
  refine foldl_select_lt _ ?_ (List.range ps.length) ps.length 0 hlen ?_
  · intro b i
    by_cases hc : sqDist (ps.getD i (0, 0)) q < sqDist (ps.getD b (0, 0)) q
    · right; exact if_pos hc
    · left; exact if_neg hc
  · intro i hi; exact List.mem_range.mp hi

theorem foldl_max_lt (n : ℕ) :
    ∀ (l : List ℕ) (acc : ℕ), acc < n → (∀ x ∈ l, x < n) → l.foldl max acc < n := by
  intro l
  induction l with
  | nil => intro acc hacc _; simpa using hacc
  | cons x xs ih =>
    intro acc hacc hmem
    simp only [List.foldl_cons]
    exact ih (max acc x) (max_lt hacc (hmem x (List.mem_cons_self x xs)))
      (fun y hy => hmem y (List.mem_cons_of_mem x hy))

theorem maxR_lt (l : List ℕ) (n : ℕ) (hn : 0 < n) (h : ∀ x ∈ l, x < n) : maxR l < n :=
  foldl_max_lt n l 0 hn h

theorem regionsList_ne_nil (ps : List (ℚ × ℚ)) (W H : ℕ) (hW : 0 < W) (hH : 0 < H) :
    regionsList ps W H ≠ [] := by
  have hmem : (0, 0) ∈ pixelList W H := by
    simp only [pixelList, List.mem_flatMap, List.mem_map]
    exact ⟨0, List.mem_range.mpr hW, 0, List.mem_range.mpr hH, rfl⟩
  have hpos : 0 < (regionsList ps W H).length := by
    simp only [regionsList, List.length_map]
    exact List.length_pos_of_mem hmem
  exact List.length_pos.mp hpos

theorem regionsList_mem_lt (ps : List (ℚ × ℚ)) (W H : ℕ) (hps : ps ≠ []) :
    ∀ r ∈ regionsList ps W H, r < ps.length := by
  intro r hr
  simp only [regionsList, List.mem_map] at hr
  obtain ⟨p, _, hp⟩ := hr
  exact hp ▸ nearestIdx_lt ps _ hps

theorem imageToColors_char_aux (ps : List (ℚ × ℚ)) (W H : ℕ) (f : ℕ → ℕ → RGB)
    (ret : List RGB) (hW : 0 < W) (hH : 0 < H) (hps : ps ≠ [])
    (h : imageToColors ps W H f = some ret) :
    ret.length = ps.length ∧
    (∀ r, minAssigned ps W H ≤ r → r < maxAssigned ps W H →
      some (ret.getD r (0, 0, 0)) =
        truncMean (assignedColors (regionsList ps W H) (colorData W H f) r)) ∧
    (∀ r, r < ps.length → (r < minAssigned ps W H ∨ maxAssigned ps W H ≤ r) →
      ret.getD r (0, 0, 0) = (0, 0, 0)) := by
  simp only [imageToColors] at h
  have hlen := applyRegions_length (regionsList ps W H) (colorData W H f) _ _ _ h
  simp only [List.length_replicate] at hlen
  have hnodup : (List.range' (minR (regionsList ps W H))
      (maxR (regionsList ps W H) - minR (regionsList ps W H))).Nodup :=
    List.nodup_range' _ _ 1 Nat.one_pos
  have hlt : ∀ x ∈ regionsList ps W H, x < ps.length := regionsList_mem_lt ps W H hps
  have hmax : maxR (regionsList ps W H) < ps.length :=
    maxR_lt _ _ (List.length_pos.mpr hps) hlt
  refine ⟨hlen, ?_, ?_⟩
  · intro r hlo hhi
    have hmem : r ∈ List.range' (minR (regionsList ps W H))
        (maxR (regionsList ps W H) - minR (regionsList ps W H)) := by
      rw [List.mem_range'_1]
      constructor
      · exact hlo
      · simp only [minAssigned, maxAssigned] at hlo hhi; omega
    have hrlen : r < (List.replicate ps.length ((0, 0, 0) : RGB)).length := by
      simp only [List.length_replicate]
      simp only [maxAssigned] at hhi
      omega
    exact applyRegions_getD_mem _ _ _ _ _ (0, 0, 0) h hnodup r hmem hrlen
  · intro r hr hout
    have hnot : r ∉ List.range' (minR (regionsList ps W H))
        (maxR (regionsList ps W H) - minR (regionsList ps W H)) := by
      intro hmem
      rw [List.mem_range'_1] at hmem
      simp only [minAssigned, maxAssigned] at hout
      omega
    rw [applyRegions_getD_not_mem _ _ _ _ _ r (0, 0, 0) h hnot]
    simp [List.getD_eq_getElem?_getD, List.getElem?_replicate, hr]

theorem colorData_const_mem (W H : ℕ) (c : RGB) :
    ∀ x ∈ colorData W H (fun _ _ => c), x = c := by
  intro x hx
  simp only [colorData, List.mem_flatMap, List.mem_map] at hx
  obtain ⟨y, _, z, _, hz⟩ := hx
  exact hz.symm

theorem assignedColors_sub (regs : List ℕ) (cols : List RGB) (r : ℕ) :
    ∀ x ∈ assignedColors regs cols r, x ∈ cols := by
  intro x hx
  simp only [assignedColors, List.mem_map, List.mem_filter] at hx
  obtain ⟨⟨a, b⟩, ⟨hzip, _⟩, hb⟩ := hx
  exact hb ▸ (List.of_mem_zip hzip).2

theorem truncMean_const (l : List RGB) (c : RGB) (hne : l ≠ [])
    (hall : ∀ x ∈ l, x = c) : truncMean l = some c := by
  have hrep : l = List.replicate l.length c := List.eq_replicate_of_mem hall
  have hpos : 0 < l.length := List.length_pos.mpr hne
  cases l with
  | nil => exact absurd rfl hne
  | cons x xs =>
    simp only [truncMean]
    rw [hrep]
    simp only [List.map_replicate, List.sum_replicate, List.length_replicate, smul_eq_mul]
    rw [Nat.mul_div_cancel_left _ (by simpa using hpos), Nat.mul_div_cancel_left _ (by simpa using hpos),
      Nat.mul_div_cancel_left _ (by simpa using hpos)]

/-- Claim C1 counterexample: a solid (5,5,5) 1 x 1 image on two LEDs.  The
single pixel is assigned to LED region 0, yet the produced ColorArray holds
black there, because the loop over range(min(regions), max(regions)) is
empty.  The claimed region does not hold the solid color. -/
theorem imageToColors_solid_cex :
    regionsList ps0 1 1 = [0] ∧
    imageToColors ps0 1 1 (fun _ _ => (5, 5, 5)) = some [(0, 0, 0), (0, 0, 0)] ∧
    (((0, 0, 0) : RGB) ≠ (5, 5, 5)) := by
  refine ⟨?_, ?_, by decide⟩
  · norm_num [regionsList, pixelList, nearestIdx, ps0, sqDist, List.range_succ]
  · norm_num [imageToColors, regionsList, pixelList, nearestIdx, ps0, sqDist, List.range_succ,
      minR, maxR, applyRegions, assignedColors, truncMean, colorData, List.replicate]

/-- Claim C1 (amended): for a solid-color image, every claimed region whose
index lies in the half-open range from the minimum assigned index to the
maximum assigned index holds exactly the solid color; regions outside this
range, including the maximum assigned index itself, are left black. -/
theorem imageToColors_solid_claimed (ps : List (ℚ × ℚ)) (W H : ℕ) (c : RGB)
    (ret : List RGB) (hW : 0 < W) (hH : 0 < H) (hps : ps ≠ [])
    (h : imageToColors ps W H (fun _ _ => c) = some ret) :
    ∀ r, minAssigned ps W H ≤ r → r < maxAssigned ps W H → ret.getD r (0, 0, 0) = c := by
  intro r hlo hhi
  have hc := (imageToColors_char_aux ps W H (fun _ _ => c) ret hW hH hps h).2.1 r hlo hhi
  have hall : ∀ x ∈ assignedColors (regionsList ps W H) (colorData W H fun _ _ => c) r, x = c :=
    fun x hx => colorData_const_mem W H c x (assignedColors_sub _ _ r x hx)
  cases hne : assignedColors (regionsList ps W H) (colorData W H fun _ _ => c) r with
  | nil => rw [hne] at hc; simp [truncMean] at hc
  | cons a l =>
    rw [hne] at hc
    rw [truncMean_const (a :: l) c (by simp) (fun x hx => hall x (hne ▸ hx))] at hc
    exact Option.some.inj hc

/-- Witness for the amended claim C1 at a concrete input: two LEDs, a solid
1 x 4 image; region 0 is claimed and lies below the maximum assigned index 1,
and indeed receives the solid color. -/
theorem imageToColors_solid_claimed_witness :
    minAssigned ps2 1 4 ≤ 0 ∧ 0 < maxAssigned ps2 1 4 ∧
    ([(5, 5, 5), (0, 0, 0)] : List RGB).getD 0 (0, 0, 0) = (5, 5, 5) := by
  have h : imageToColors ps2 1 4 (fun _ _ => (5, 5, 5)) = some [(5, 5, 5), (0, 0, 0)] := by
    norm_num [imageToColors, regionsList, pixelList, nearestIdx, ps2, sqDist, List.range_succ,
      minR, maxR, applyRegions, assignedColors, truncMean, colorData, List.replicate,
      List.range']
  have hlo : minAssigned ps2 1 4 = 0 := by
    norm_num [minAssigned, minR, regionsList, pixelList, nearestIdx, ps2, sqDist, List.range_succ]
  have hhi : maxAssigned ps2 1 4 = 1 := by
    norm_num [maxAssigned, maxR, regionsList, pixelList, nearestIdx, ps2, sqDist, List.range_succ]
  refine ⟨le_of_eq hlo, by omega, ?_⟩
  exact imageToColors_solid_claimed ps2 1 4 (5, 5, 5) [(5, 5, 5), (0, 0, 0)]
    (by norm_num) (by norm_num) (by simp [ps2]) h 0 (by omega) (by omega)

/-- Claim C2 counterexample: on the 1 x 4 grey image f3 with three LEDs the
code produces truncated means and leaves the maximum assigned region black,
while the claim predicts rounded-to-nearest means for every claimed region.
Region 1 has pixels of grey 1 and 2 (mean 1.5): the code yields 1, the claim
2; region 2 is claimed with grey 7 but the code leaves it black. -/
theorem imageToColors_mean_cex :
    imageToColors ps3 1 4 f3 = some [(9, 9, 9), (1, 1, 1), (0, 0, 0)] ∧
    claimedRegionColors ps3 1 4 f3 = [(9, 9, 9), (2, 2, 2), (7, 7, 7)] ∧
    (([(9, 9, 9), (1, 1, 1), (0, 0, 0)] : List RGB) ≠ [(9, 9, 9), (2, 2, 2), (7, 7, 7)]) := by
  refine ⟨?_, ?_, by decide⟩
  · norm_num [imageToColors, regionsList, pixelList, nearestIdx, ps3, sqDist, List.range_succ,
      minR, maxR, applyRegions, assignedColors, truncMean, colorData, f3, List.range',
      List.replicate]
  · norm_num [claimedRegionColors, regionsList, pixelList, nearestIdx, ps3, sqDist,
      List.range_succ, assignedColors, colorData, f3, roundClamp]
    decide

/-- Claim C2 (amended): whenever the mapping completes, each region index in
the half-open range from the minimum to the maximum assigned index receives
the per-channel arithmetic mean of the image data assigned to it, truncated
toward zero (as int() does), and every other region index — including the
maximum assigned index itself, claimed or not — receives pure black. -/
theorem imageToColors_region_char (ps : List (ℚ × ℚ)) (W H : ℕ) (f : ℕ → ℕ → RGB)
    (ret : List RGB) (hW : 0 < W) (hH : 0 < H) (hps : ps ≠ [])
    (h : imageToColors ps W H f = some ret) :
    ret.length = ps.length ∧
    (∀ r, minAssigned ps W H ≤ r → r < maxAssigned ps W H →
      some (ret.getD r (0, 0, 0)) =
        truncMean (assignedColors (regionsList ps W H) (colorData W H f) r)) ∧
    (∀ r, r < ps.length → (r < minAssigned ps W H ∨ maxAssigned ps W H ≤ r) →
      ret.getD r (0, 0, 0) = (0, 0, 0)) :=
  imageToColors_char_aux ps W H f ret hW hH hps h

/-- Witness for the amended claim C2 at a concrete input: on ps3 and f3, the
region 1 entry of the output equals the truncated mean of its assigned
pixels, and the region 2 entry (the maximum assigned index) is black. -/
theorem imageToColors_region_char_witness :
    some (([(9, 9, 9), (1, 1, 1), (0, 0, 0)] : List RGB).getD 1 (0, 0, 0)) =
      truncMean (assignedColors (regionsList ps3 1 4) (colorData 1 4 f3) 1) ∧
    ([(9, 9, 9), (1, 1, 1), (0, 0, 0)] : List RGB).getD 2 (0, 0, 0) = (0, 0, 0) := by
  have h : imageToColors ps3 1 4 f3 = some [(9, 9, 9), (1, 1, 1), (0, 0, 0)] := by
    norm_num [imageToColors, regionsList, pixelList, nearestIdx, ps3, sqDist, List.range_succ,
      minR, maxR, applyRegions, assignedColors, truncMean, colorData, f3, List.range',
      List.replicate]
  have hlo : minAssigned ps3 1 4 = 0 := by
    norm_num [minAssigned, minR, regionsList, pixelList, nearestIdx, ps3, sqDist, List.range_succ]
  have hhi : maxAssigned ps3 1 4 = 2 := by
    norm_num [maxAssigned, maxR, regionsList, pixelList, nearestIdx, ps3, sqDist, List.range_succ]
  have hc := imageToColors_region_char ps3 1 4 f3 [(9, 9, 9), (1, 1, 1), (0, 0, 0)]
    (by norm_num) (by norm_num) (by simp [ps3]) h
  exact ⟨hc.2.1 1 (by omega) (by omega), hc.2.2 2 (by simp [ps3]) (by omega)⟩

theorem dfPop_length (tgt : List ℤ) :
    ∀ (b : ℕ) (rem : List ℕ) (cur : List ℤ),
      (dfPop tgt b rem cur).1.length = rem.length - b := by
  intro b
  induction b with
  | zero => intro rem cur; simp [dfPop]
  | succ b ih =>
    intro rem cur
    cases hr : rem.getLast? with
    | none =>
      have he : rem = [] := List.getLast?_eq_none_iff.mp hr
      subst he; simp [dfPop]
    | some idx =>
      have hne : rem ≠ [] := by
        intro he; rw [he] at hr; simp at hr
      simp only [dfPop, hr]
      rw [ih]
      simp only [List.length_dropLast]
      omega

theorem dfPop_perm (tgt : List ℤ) :
    ∀ (b : ℕ) (rem : List ℕ) (cur : List ℤ),
      ((dfPop tgt b rem cur).2.2 ++ (dfPop tgt b rem cur).1).Perm rem := by
  intro b
  induction b with
  | zero => intro rem cur; simp [dfPop]
  | succ b ih =>
    intro rem cur
    cases hr : rem.getLast? with
    | none =>
      have he : rem = [] := List.getLast?_eq_none_iff.mp hr
      subst he; simp [dfPop]
    | some idx =>
      have hne : rem ≠ [] := by
        intro he; rw [he] at hr; simp at hr
      have hidx : idx = rem.getLast hne := by
        rw [List.getLast?_eq_getLast rem hne] at hr
        exact (Option.some.inj hr).symm
      have hsplit : rem.dropLast ++ [idx] = rem := by
        rw [hidx]; exact List.dropLast_concat_getLast hne
      simp only [dfPop, hr, List.cons_append]
      have h1 := (ih rem.dropLast (setTgt tgt cur idx)).cons idx
      have h2 : (idx :: rem.dropLast).Perm (rem.dropLast ++ [idx]) :=
        (List.perm_append_singleton idx rem.dropLast).symm
      have h3 : (rem.dropLast ++ [idx]).Perm rem := by rw [hsplit]
      exact (h1.trans h2).trans h3

theorem dfPop_cur (tgt : List ℤ) :
    ∀ (b : ℕ) (rem : List ℕ) (cur : List ℤ),
      (dfPop tgt b rem cur).2.1 = (dfPop tgt b rem cur).2.2.foldl (setTgt tgt) cur := by
  intro b
  induction b with
  | zero => intro rem cur; simp [dfPop]
  | succ b ih =>
    intro rem cur
    cases hr : rem.getLast? with
    | none => simp [dfPop, hr]
    | some idx =>
      simp only [dfPop, hr, List.foldl_cons]
      exact ih rem.dropLast (setTgt tgt cur idx)

theorem foldl_setTgt_length (tgt : List ℤ) :
    ∀ (ws : List ℕ) (cur : List ℤ), (ws.foldl (setTgt tgt) cur).length = cur.length := by
  intro ws
  induction ws with
  | nil => intro cur; simp
  | cons w ws ih => intro cur; simp only [List.foldl_cons]; rw [ih]; simp [setTgt]

theorem foldl_setTgt_getD (tgt : List ℤ) :
    ∀ (ws : List ℕ) (cur : List ℤ) (j : ℕ), j < cur.length →
      (ws.foldl (setTgt tgt) cur).getD j 0 =
        if j ∈ ws then tgt.getD j 0 else cur.getD j 0 := by
  intro ws
  induction ws with
  | nil => intro cur j _; simp
  | cons w ws ih =>
    intro cur j hj
    simp only [List.foldl_cons]
    rw [ih (setTgt tgt cur w) j (by simp [setTgt, hj])]
    by_cases hmem : j ∈ ws
    · simp [hmem]
    · by_cases hw : j = w
      · rw [if_neg hmem, if_pos (by simp [hw]), hw]
        exact getD_set_eq cur w (tgt.getD w 0) 0 (hw ▸ hj)
      · rw [if_neg hmem, if_neg (by simp [hw, hmem])]
        exact getD_set_ne cur w j _ 0 (fun he => hw he.symm)

theorem foldl_setTgt_perm_range (tgt cur : List ℤ) (N : ℕ) (ws : List ℕ)
    (hcur : cur.length = N) (htgt : tgt.length = N) (hperm : ws.Perm (List.range N)) :
    ws.foldl (setTgt tgt) cur = tgt := by
  apply List.ext_getElem
  · rw [foldl_setTgt_length]; omega
  · intro i h1 h2
    have hiN : i < N := by omega
    have hmem : i ∈ ws := hperm.mem_iff.mpr (List.mem_range.mpr hiN)
    have hgd := foldl_setTgt_getD tgt ws cur i (by omega)
    rw [if_pos hmem] at hgd
    have hl : (ws.foldl (setTgt tgt) cur)[i]? = some ((ws.foldl (setTgt tgt) cur)[i]) :=
      List.getElem?_eq_getElem h1
    have hr : tgt[i]? = some tgt[i] := List.getElem?_eq_getElem h2
    simp only [List.getD_eq_getElem?_getD, hl, hr, Option.getD_some] at hgd
    exact hgd

theorem ceil_div_step (m b : ℕ) (hm : 0 < m) (hb : 0 < b) :
    (m + b - 1) / b = (m - b + b - 1) / b + 1 := by
  have h1 : m + b - 1 = (m - 1) + b := by omega
  rw [h1, Nat.add_div_right _ hb]
  by_cases h : b < m
  · have h2 : m - b + b - 1 = m - 1 := by omega
    rw [h2]
  · have h2 : m - b + b - 1 = b - 1 := by omega
    rw [h2]
    have h3 : (m - 1) / b = 0 := Nat.div_eq_of_lt (by omega)
    have h4 : (b - 1) / b = 0 := Nat.div_eq_of_lt (by omega)
    rw [h3, h4]

theorem dfRun_spec (b : ℕ) (hb : 0 < b) :
    ∀ (fuel : ℕ) (s : DFState), s.remaining.length ≤ fuel →
      (dfRun b fuel s).1 = (s.remaining.length + b - 1) / b ∧
      (dfRun b fuel s).2.1.remaining = [] ∧
      (dfRun b fuel s).2.1.target = s.target ∧
      (dfRun b fuel s).2.2.Perm s.remaining ∧
      (dfRun b fuel s).2.1.cur = (dfRun b fuel s).2.2.foldl (setTgt s.target) s.cur := by
  intro fuel
  induction fuel with
  | zero =>
    intro s hlen
    have hrem : s.remaining = [] := List.eq_nil_of_length_eq_zero (by omega)
    have hrun : dfRun b 0 s = (0, s, []) := rfl
    rw [hrun]
    refine ⟨?_, hrem, rfl, by simp [hrem], by simp⟩
    rw [hrem]
    simp [Nat.div_eq_of_lt (by omega : b - 1 < b)]
  | succ fuel ih =>
    intro s hlen
    by_cases hrem : s.remaining = []
    · have hnone : dfNext b s = none := by simp [dfNext, hrem]
      have hrun : dfRun b (fuel + 1) s = (0, s, []) := by simp [dfRun, hnone]
      rw [hrun]
      refine ⟨?_, hrem, rfl, by simp [hrem], by simp⟩
      rw [hrem]
      simp [Nat.div_eq_of_lt (by omega : b - 1 < b)]
    · have hpos : 0 < s.remaining.length := List.length_pos.mpr hrem
      set p := dfPop s.target b s.remaining s.cur with hp
      set s2 : DFState := { remaining := p.1, cur := p.2.1, target := s.target } with hs2
      have hsome : dfNext b s = some (s2, p.2.1, p.2.2) := by
        simp [dfNext, hrem, hs2, hp]
      have hstep : dfRun b (fuel + 1) s =
          ((dfRun b fuel s2).1 + 1, (dfRun b fuel s2).2.1, p.2.2 ++ (dfRun b fuel s2).2.2) := by
        simp [dfRun, hsome]
      have hlen2 : s2.remaining.length = s.remaining.length - b := by
        simp only [hs2, hp]
        exact dfPop_length s.target b s.remaining s.cur
      have hfuel2 : s2.remaining.length ≤ fuel := by omega
      obtain ⟨ih1, ih2, ih3, ih4, ih5⟩ := ih s2 hfuel2
      rw [hstep]
      refine ⟨?_, ih2, by simpa using ih3, ?_, ?_⟩
      · rw [ih1, hlen2]
        exact (ceil_div_step s.remaining.length b hpos hb).symm
      · have hpp : (p.2.2 ++ (dfRun b fuel s2).2.2).Perm (p.2.2 ++ s2.remaining) :=
          List.Perm.append_left p.2.2 (ih4.trans (by simp [hs2]))
        have hpq : (p.2.2 ++ p.1).Perm s.remaining := dfPop_perm s.target b s.remaining s.cur
        exact hpp.trans (by simpa [hs2] using hpq)
      · have hcur2 : s2.cur = p.2.2.foldl (setTgt s.target) s.cur := by
          simp only [hs2]
          exact dfPop_cur s.target b s.remaining s.cur
        have ht2 : s2.target = s.target := rfl
        rw [List.foldl_append, ih5, ht2, hcur2]

/-- Claim C3: for every strip of N pixels (N at least 1), every batch size b
at least 1, and every pair of old and target frames — identical frames
included, there is no per-pixel short-circuit — the dithered-swap iteration
emits exactly ceil(N / b) frames, its next call is terminal exactly when the
shuffled queue is empty, and the writes over the whole run form a permutation
of the pixel indices 0..N-1 (each index overwritten with its target color
exactly once), leaving the current frame equal to the target frame. -/
theorem ditherFade_frames_cover (N b : ℕ) (hb : 1 ≤ b) (hN : 1 ≤ N)
    (rem : List ℕ) (cur tgt : List ℤ)
    (hperm : rem.Perm (List.range N)) (hcur : cur.length = N) (htgt : tgt.length = N) :
    (dfRun b N ⟨rem, cur, tgt⟩).1 = (N + b - 1) / b ∧
    (dfRun b N ⟨rem, cur, tgt⟩).2.1.remaining = [] ∧
    dfNext b (dfRun b N ⟨rem, cur, tgt⟩).2.1 = none ∧
    (dfRun b N ⟨rem, cur, tgt⟩).2.2.Perm (List.range N) ∧
    (dfRun b N ⟨rem, cur, tgt⟩).2.1.cur = tgt := by
  have hlen : (DFState.mk rem cur tgt).remaining.length = N := by
    simpa using hperm.length_eq.trans (List.length_range N)
  obtain ⟨h1, h2, h3, h4, h5⟩ := dfRun_spec b hb N ⟨rem, cur, tgt⟩ (le_of_eq hlen)
  have hwperm : (dfRun b N ⟨rem, cur, tgt⟩).2.2.Perm (List.range N) :=
    (h4.trans (by simpa using hperm))
  refine ⟨by rw [h1, hlen], h2, by simp [dfNext, h2], hwperm, ?_⟩
  rw [h5]
  exact foldl_setTgt_perm_range tgt cur N _ hcur htgt hwperm

/-- Witness for claim C3 at a concrete input: two pixels, batch size one,
shuffled queue in the order 1, 0, distinct old and target colors.  The run
emits 2 = ceil(2/1) frames, terminates with an empty queue, writes each
index once and ends at the target frame. -/
theorem ditherFade_frames_cover_witness :
    (dfRun 1 2 ⟨[1, 0], [3, 4], [9, 8]⟩).1 = (2 + 1 - 1) / 1 ∧
    (dfRun 1 2 ⟨[1, 0], [3, 4], [9, 8]⟩).2.1.remaining = [] ∧
    dfNext 1 (dfRun 1 2 ⟨[1, 0], [3, 4], [9, 8]⟩).2.1 = none ∧
    (dfRun 1 2 ⟨[1, 0], [3, 4], [9, 8]⟩).2.2.Perm (List.range 2) ∧
    (dfRun 1 2 ⟨[1, 0], [3, 4], [9, 8]⟩).2.1.cur = [9, 8] :=
  ditherFade_frames_cover 2 1 (by decide) (by decide) [1, 0] [3, 4] [9, 8]
    (by decide) (by decide) (by decide)

theorem lfRun_getElem? :
    ∀ (fuel : ℕ) (s : LFState) (j : ℕ),
      (lfRun fuel s)[j]? =
        if s.fn + j < s.steps ∧ j < fuel then
          some (lerpFrame s.old s.tgt s.steps (s.fn + j))
        else none := by
  intro fuel
  induction fuel with
  | zero => intro s j; simp [lfRun]
  | succ fuel ih =>
    intro s j
    by_cases hs : s.steps ≤ s.fn
    · have hrun : lfRun (fuel + 1) s = [] := by simp [lfRun, lfNext, hs]
      rw [hrun, if_neg (by omega)]
      simp
    · have hrun : lfRun (fuel + 1) s =
          lerpFrame s.old s.tgt s.steps s.fn :: lfRun fuel { s with fn := s.fn + 1 } := by
        simp [lfRun, lfNext, hs]
      rw [hrun]
      cases j with
      | zero =>
        rw [if_pos (by constructor <;> omega)]
        simp
      | succ j =>
        have hj : (lerpFrame s.old s.tgt s.steps s.fn :: lfRun fuel { s with fn := s.fn + 1 })[j + 1]? =
            (lfRun fuel { s with fn := s.fn + 1 })[j]? := by simp
        rw [hj, ih { s with fn := s.fn + 1 } j]
        by_cases hc : s.fn + 1 + j < s.steps ∧ j < fuel
        · rw [if_pos hc, if_pos (by omega)]
          have : s.fn + 1 + j = s.fn + (j + 1) := by omega
          rw [this]
        · rw [if_neg hc, if_neg (by omega)]

theorem lfRun_length :
    ∀ (fuel : ℕ) (s : LFState), (lfRun fuel s).length = min fuel (s.steps - s.fn) := by
  intro fuel
  induction fuel with
  | zero => intro s; simp [lfRun]
  | succ fuel ih =>
    intro s
    by_cases hs : s.steps ≤ s.fn
    · have hrun : lfRun (fuel + 1) s = [] := by simp [lfRun, lfNext, hs]
      rw [hrun]
      simp
      omega
    · have hrun : lfRun (fuel + 1) s =
          lerpFrame s.old s.tgt s.steps s.fn :: lfRun fuel { s with fn := s.fn + 1 } := by
        simp [lfRun, lfNext, hs]
      rw [hrun]
      simp only [List.length_cons, ih]
      omega

/-- Claim C5 counterexample: fading channel 0 to 255 over 10 steps, the first
frame the iterator emits (its step k = 1) has channel value 0, because the
code multiplies delta by frame_number, which is still 0, and truncates; the
claim predicts round(1 times 25.5) = 26. -/
theorem lerpFade_first_frame_cex :
    lfNext ⟨0, [0], [255], 10⟩ = some (⟨1, [0], [255], 10⟩, [0]) ∧
    claimedLerpValue 0 255 10 1 = 26 ∧ ((0 : ℤ) ≠ 26) := by
  refine ⟨?_, ?_, by decide⟩
  · norm_num [lfNext, lerpFrame, truncQ]
  · norm_num [claimedLerpValue]

/-- Claim C5 (amended): LerpFade precomputes delta = (target - old) / steps
per pixel; iterating from a fresh state it emits exactly steps frames, and
the k-th emitted frame (1 <= k <= steps) holds, per pixel, the value
old + trunc((k - 1) (target - old) / steps), truncation toward zero as
performed by astype(int) — not old + round(k (target - old) / steps). -/
theorem lerpFade_frame_values (old tgt : List ℤ) (steps : ℕ) (hs : 1 ≤ steps)
    (k : ℕ) (hk1 : 1 ≤ k) (hk : k ≤ steps) :
    (lfRun steps ⟨0, old, tgt, steps⟩).length = steps ∧
    (lfRun steps ⟨0, old, tgt, steps⟩)[k - 1]? =
      some (lerpFrame old tgt steps (k - 1)) := by
  constructor
  · rw [lfRun_length steps ⟨0, old, tgt, steps⟩]
    show min steps (steps - 0) = steps
    omega
  · rw [lfRun_getElem? steps ⟨0, old, tgt, steps⟩ (k - 1),
      if_pos (show (0 : ℕ) + (k - 1) < steps ∧ k - 1 < steps by omega)]
    rw [show (0 : ℕ) + (k - 1) = k - 1 by omega]

/-- Witness for the amended claim C5: fading 0 to 255 over 10 steps, the
second emitted frame (k = 2) holds trunc(25.5) = 25. -/
theorem lerpFade_frame_values_witness :
    (lfRun 10 ⟨0, [0], [255], 10⟩).length = 10 ∧
    (lfRun 10 ⟨0, [0], [255], 10⟩)[1]? = some [25] := by
  have h := lerpFade_frame_values [0] [255] 10 (by decide) 2 (by decide) (by decide)
  refine ⟨h.1, ?_⟩
  rw [h.2]
  norm_num [lerpFrame, truncQ]

/-- Claim C4: the claim states the DitherLerpFade iterator is terminal after
its steps outer iterations; in the code, however, every call of __next__
returns a frame — there is no StopIteration branch at all (the step bound is
never consulted), so the iterator is never terminal, for every strip, batch
size, step count, shuffle oracle and reachable state. -/
theorem ditherLerpFade_never_terminal (refill : List ℕ) (s : DLFState) :
    (dlfNext refill s).isSome = true := rfl

/-- Claim C6: the claim states the loop sleeps max(0, delay - elapsed) and
never a negative duration; the code passes delay - dt to time.sleep
unclamped, so a 50 ms render against a 33 ms delay yields a negative sleep
duration, differing from max(0, delay - dt), and time.sleep raises
ValueError instead of proceeding to the next frame. -/
theorem animationPlay_sleep_negative :
    playSleep (33/1000) (50/1000) = -(17/1000) ∧
    playSleep (33/1000) (50/1000) < 0 ∧
    playSleep (33/1000) (50/1000) ≠ max 0 ((33 : ℚ)/1000 - 50/1000) ∧
    pySleep (playSleep (33/1000) (50/1000)) = Except.error "ValueError" := by
  have hmax : max (0 : ℚ) ((33 : ℚ)/1000 - 50/1000) = 0 := max_eq_left (by norm_num)
  refine ⟨by norm_num [playSleep], by norm_num [playSleep], ?_, ?_⟩
  · rw [hmax]
    norm_num [playSleep]
  · norm_num [playSleep, pySleep]

/-- Claim C7 counterexample: at led_count 150 and dither_time 0.25 the code
computes switches = 50, preliminary batch round(3.5) = 4, batch count
round(37.5) = 38 and final batch round(150/38) = 4, while the claimed
formula gives ceil(150/50) = 3. -/
theorem ditherBatchSize_formula_cex :
    ditherBatchSize 150 (1/4) = some 4 ∧ claimedBatchSize 150 (1/4) = 3 ∧
    (some (4 : ℤ) ≠ some (3 : ℤ)) := by
  refine ⟨?_, ?_, by decide⟩
  · norm_num [ditherBatchSize, pyRound]
  · norm_num [claimedBatchSize, pyRound]

/-- Claim C7 (amended): the batch size follows dither_fade's iterative
rounding computation, not the closed ceiling formula, and there is no
max(1, ...) guard: a dither_time below 2.5 ms makes the rounded switch count
zero and raises ZeroDivisionError.  For led_count 150 and dither_time 1.0
the computed batch size is 1, which satisfies 1 <= batch <= led_count. -/
theorem ditherBatchSize_150_1 :
    ditherBatchSize 150 1 = some 1 ∧ ((1 : ℤ) ≤ 1 ∧ (1 : ℤ) ≤ 150) ∧
    ditherBatchSize 150 (1/500) = none := by
  refine ⟨?_, by decide, ?_⟩
  · norm_num [ditherBatchSize, pyRound]
  · norm_num [ditherBatchSize, pyRound]

/-- Claim C8 counterexample: with the cache file present but corrupt, the
load error surfaces to the caller unchanged; it is not treated as a cache
miss and does not fall back to the recomputed value. -/
theorem displayImage_cache_error_cex :
    displayImageLoad ℕ true (Except.error "corrupt pickle") 7 =
      Except.error "corrupt pickle" ∧
    (Except.error "corrupt pickle" ≠ (Except.ok 7 : Except String ℕ)) :=
  ⟨rfl, by simp⟩

/-- Claim C8 (amended): display_image has no local recovery: when the cache
file exists the unpickling outcome — success or failure — is returned as is,
so a read or deserialize failure propagates as a fatal error to the caller;
recomputation happens exactly when the file does not exist. -/
theorem displayImageLoad_spec (α : Type) (load : Except String α) (recompute : α) :
    displayImageLoad α true load recompute = load ∧
    displayImageLoad α false load recompute = Except.ok recompute :=
  ⟨rfl, rfl⟩

/-- Claim C9 counterexample: both steps emit the same frame object (identity
0), and the second step mutates the frame object emitted by the first step
in place: its colors read 0 1 at emission and 1 1 after the next step. -/
theorem ditherFade_frame_alias_cex :
    df9Next df9S0 = some (df9S1, 0) ∧ df9Next df9S1 = some (df9S2, 0) ∧
    df9S1.store.getD 0 [] = [0, 1] ∧ df9S2.store.getD 0 [] = [1, 1] ∧
    (([0, 1] : List ℤ) ≠ [1, 1]) := by decide

/-- Claim C9 (amended): every DitherFade step emits the engine's own current
frame object, not a copy, and mutates only that already-emitted object in
subsequent steps; every other frame object in the store — in particular the
caller's target frame, and the caller's old frame, which was deep-copied at
construction — is left untouched. -/
theorem df9Next_mutates_only_current (s s2 : DF9State) (e : ℕ)
    (h : df9Next s = some (s2, e)) :
    e = s.curId ∧ s2.curId = s.curId ∧ s2.newId = s.newId ∧
    ∀ j, j ≠ s.curId → s2.store.getD j [] = s.store.getD j [] := by
  simp only [df9Next] at h
  by_cases hrem : s.remaining = []
  · simp [hrem] at h
  · rw [if_neg hrem] at h
    have hp := Option.some.inj h
    have hs2 : s2 = { s with
        remaining := (dfPop (s.store.getD s.newId []) s.batch s.remaining (s.store.getD s.curId [])).1,
        store := s.store.set s.curId
          (dfPop (s.store.getD s.newId []) s.batch s.remaining (s.store.getD s.curId [])).2.1 } :=
      (congrArg Prod.fst hp).symm
    have he : e = s.curId := (congrArg Prod.snd hp).symm
    refine ⟨he, by rw [hs2], by rw [hs2], ?_⟩
    intro j hj
    rw [hs2]
    exact getD_set_ne s.store s.curId j _ [] (fun hc => hj hc.symm)

/-- Witness for the amended claim C9 at the concrete two-pixel run. -/
theorem df9Next_mutates_only_current_witness :
    0 = df9S0.curId ∧ df9S1.curId = df9S0.curId ∧ df9S1.newId = df9S0.newId ∧
    ∀ j, j ≠ df9S0.curId → df9S1.store.getD j [] = df9S0.store.getD j [] :=
  df9Next_mutates_only_current df9S0 df9S1 0 (by decide)

set_option maxRecDepth 4000 in
/-- Claim C10: for a 150 pixel strip, at step 233 of the 256 steps of the
non-reversed sunrise animation, sunrise_end = int(frac * 150) + int(0.1 *
150) = 136 + 15 = 151 exceeds 150, the written pixel range contains index
150, and the stub setPixelColor on a 150 element array rejects index 150
(IndexError); every earlier step stays within bounds, so step 233 is reached
and the animation dies before completing its 256 steps. -/
theorem sunrise_overruns_strip :
    233 < 256 ∧
    sunriseStart 150 256 233 + sunriseWidth 150 = 151 ∧ 150 < 151 ∧
    150 ∈ sunrisePixels 150 256 233 ∧
    stubSetPixelColor (List.replicate 150 0) 150 7 = none ∧
    (∀ step < 233, sunriseStart 150 256 step + sunriseWidth 150 ≤ 150) := by decide
